import Mathlib

/-!
Shallow embedding of the query-language core of `src/rdb_protocol/query_language.hpp`:
the lazy stream algebra (`json_stream_t` and its implementations) and the two
scope disciplines (`variable_scope_t` and `implicit_value_t`).

A C++ `json_stream_t` has a single method `next()` returning either the next
document or a null shared pointer (the exhaustion sentinel).  We model a
stream kind as a state type `σ` together with a step function
`σ → Option J × σ`: `none` is the sentinel and the second component is the
stream's state after the call.  JSON documents are opaque (`J` is a type
parameter); the operators never inspect them, matching the source, which only
moves `shared_ptr<scoped_cJSON_t>` values around.
-/

/-- A stream kind: one `next()` call on a state of type `σ`. -/
abbrev Step (σ J : Type) : Type := σ → Option J × σ

/-- The state of a stream after `k` calls to `next()`. -/
def stepN {σ J : Type} (step : Step σ J) : Nat → σ → σ
  | 0, s => s
  | k + 1, s => stepN step k (step s).2

/-- The results of the first `k` calls to `next()`, in order. -/
def iterStream {σ J : Type} (step : Step σ J) : Nat → σ → List (Option J)
  | 0, _ => []
  | k + 1, s => (step s).1 :: iterStream step k (step s).2

/-- The documents produced by the first `k` calls (sentinels dropped). -/
def produced {σ J : Type} (step : Step σ J) (k : Nat) (s : σ) : List J :=
  (iterStream step k s).filterMap id

/-- A state on which `next()` returns the exhaustion sentinel. -/
def Exhausted {σ J : Type} (step : Step σ J) (s : σ) : Prop :=
  (step s).1 = none

/-- The stream-exhaustion contract: once a call to `next()` has returned the
sentinel, every subsequent call (after `k` further calls, for every `k`)
also returns it. -/
def ExhaustForever {σ J : Type} (step : Step σ J) : Prop :=
  ∀ s, Exhausted step s → ∀ k, Exhausted step (stepN step k (step s).2)

/-- One-step form of the contract: a call made right after a sentinel
returns the sentinel again. -/
def ExhaustStep {σ J : Type} (step : Step σ J) : Prop :=
  ∀ s, Exhausted step s → Exhausted step (step s).2

/-- `in_memory_stream_t::next`: pop the front of the materialized list. -/
def in_memory_next {J : Type} : Step (List J) J
  | [] => (none, [])
  | x :: xs => (some x, xs)

/-- `union_stream_t::next`: the state is the suffix of the stream list from
the iterator `hd` on; pull the current stream, advancing past exhausted
ones.  All member streams share the substream state type `σ`. -/
def union_next {σ J : Type} (step : Step σ J) : Step (List σ) J
  | [] => (none, [])
  | s :: rest =>
    match step s with
    | (some j, s') => (some j, s' :: rest)
    | (none, _) => union_next step rest

/-- `filter_stream_t::next`, with the upstream modelled by the list of
documents it has yet to produce: pull until `p` holds on a document (which
is returned unmodified) or the upstream is exhausted. -/
def filter_next {J : Type} (p : J → Bool) : Step (List J) J
  | [] => (none, [])
  | x :: xs => if p x then (some x, xs) else filter_next p xs

/-- `mapping_stream_t::next`: one in, one out; propagates the sentinel. -/
def mapping_next {σ J : Type} (f : J → J) (step : Step σ J) : Step σ J :=
  fun s =>
    match step s with
    | (some j, s') => (some (f j), s')
    | (none, s') => (none, s')

/-- `concat_mapping_stream_t::next`.  The state is the current substream
(`none` when the `substream` pointer is unset) paired with the upstream,
both modelled by their remaining documents; `g` maps an upstream document to
the documents of its substream.  The equations mirror the source loop: no
substream returns the sentinel; a nonempty substream yields its front; an
exhausted substream pulls the upstream and installs a fresh substream; an
exhausted substream over an exhausted upstream resets the pointer. -/
def concat_mapping_next {J : Type} (g : J → List J) : Step (Option (List J) × List J)
    J
  | (none, up) => (none, (none, up))
  | (some (x :: xs), up) => (some x, (some xs, up))
  | (some [], j :: up) => concat_mapping_next g (some (g j), up)
  | (some [], []) => (none, (none, []))
termination_by st => st.2.length

/-- The `concat_mapping_stream_t` constructor: it eagerly pulls one upstream
document (`stream->next()`) and installs its substream. -/
def concat_mapping_init {J : Type} (g : J → List J) (up : List J) :
    Option (List J) × List J :=
  match in_memory_next up with
  | (some j, up') => (some (g j), up')
  | (none, up') => (none, up')

/-- `limit_stream_t::next`: the `int limit` field counts down; when it is
zero the result is the sentinel and the upstream is not pulled at all. -/
def limit_next {σ J : Type} (step : Step σ J) : Step (Int × σ) J :=
  fun ls =>
    if ls.1 = 0 then (none, ls)
    else
      match step ls.2 with
      | (r, s') => (r, (ls.1 - 1, s'))

/-- Instrumentation wrapper (not from the source): counts how many times the
wrapped stream's `next()` is called, so "pulls at most n times" is statable. -/
def counting_step {σ J : Type} (step : Step σ J) : Step (Nat × σ) J :=
  fun cs =>
    match step cs.2 with
    | (r, s') => (r, (cs.1 + 1, s'))

/-- The shared state of a `stream_multiplexer_t`: the wrapped upstream and
the growing buffer `data`. -/
structure MuxState (σ J : Type) where
  stream : σ
  data : List J

/-- `stream_multiplexer_t::stream_t::next`: a consumer's own state is its
`index` into the shared buffer.  While the index runs past the buffer's end,
`maybe_read_more()` pulls the upstream and appends to the buffer; if the
pull fails the sentinel is returned, otherwise `data[index++]`. -/
def mux_next {σ J : Type} (step : Step σ J) (c : Nat × MuxState σ J) :
    Option J × (Nat × MuxState σ J) :=
  if h : c.1 < c.2.data.length then
    (some (c.2.data[c.1]), (c.1 + 1, c.2))
  else
    match step c.2.stream with
    | (some j, s') => mux_next step (c.1, ⟨s', c.2.data ++ [j]⟩)
    | (none, s') => (none, (c.1, ⟨s', c.2.data⟩))
termination_by c.1 + 1 - c.2.data.length
decreasing_by simp [List.length_append]; omega

/-- Run a schedule of consumer ids against one shared multiplexer: consumer
`c` keeps its own index `idxs c` and observed results `outs c`, and every
call updates the multiplexer state shared by all consumers. -/
def mux_run {σ J : Type} (step : Step σ J) :
    List Nat → (Nat → Nat) × (Nat → List (Option J)) × MuxState σ J →
      (Nat → Nat) × (Nat → List (Option J)) × MuxState σ J
  | [], st => st
  | c :: sched, (idxs, outs, m) =>
    match mux_next step (idxs c, m) with
    | (r, (i', m')) =>
      mux_run step sched
        (Function.update idxs c i', Function.update outs c (outs c ++ [r]), m')

/-!
Scope stacks.  `variable_scope_t<T>` is a `std::deque` of `std::map`s with
the newest frame at the front; we model a frame as an association list
(`std::map` keyed by `std::string`, at most one binding per name in
reachable states), and the deque as a list with the newest frame first.
-/

/-- `std::map<std::string,T>::find` on one frame. -/
def assoc_find {T : Type} : List (String × T) → String → Option T
  | [], _ => none
  | (k, v) :: rest, nm => if nm = k then some v else assoc_find rest nm

/-- Left-biased choice on options, used to state lookup compositions. -/
def orO {T : Type} : Option T → Option T → Option T
  | some v, _ => some v
  | none, b => b

/-- `variable_scope_t::push`: a new empty frame at the front. -/
def scope_push {T : Type} (sc : List (List (String × T))) :
    List (List (String × T)) :=
  [] :: sc

/-- `variable_scope_t::pop`: discard the newest frame (`pop_front`). -/
def scope_pop {T : Type} (sc : List (List (String × T))) :
    List (List (String × T)) :=
  sc.tail

/-- `variable_scope_t::get`: search the frames newest-first and return the
first binding found; `none` models the `unreachable(...)` branch reached
when no frame contains the name. -/
def scope_get {T : Type} : List (List (String × T)) → String → Option T
  | [], _ => none
  | fr :: rest, nm =>
    match assoc_find fr nm with
    | some v => some v
    | none => scope_get rest nm

/-- `variable_scope_t::is_in_scope`: some frame contains the name. -/
def scope_is_in_scope {T : Type} : List (List (String × T)) → String → Bool
  | [], _ => false
  | fr :: rest, nm => (assoc_find fr nm).isSome || scope_is_in_scope rest nm

/-- One step of `variable_scope_t::dump`'s inner loop:
`if (!map->count(it->first)) map->insert(*it)` — earlier bindings win. -/
def map_insert_absent {T : Type} (m : List (String × T)) (kv : String × T) :
    List (String × T) :=
  if (assoc_find m kv.1).isSome then m else m ++ [kv]

/-- `variable_scope_t::dump`: flatten the stack to a single map, iterating
frames newest-first so that bindings from newer frames take precedence. -/
def scope_dump {T : Type} (sc : List (List (String × T))) : List (String × T) :=
  sc.foldl (fun m fr => fr.foldl map_insert_absent m) []

/-- `variable_scope_t::new_scope_t`: the sentinel's constructor pushes one
frame, the region body runs (returning normally or propagating an error as
an `Except` value, in either case handing back the scope state), and the
destructor pops one frame on every exit path. -/
def with_new_scope {T E A : Type}
    (body : List (List (String × T)) → Except E A × List (List (String × T)))
    (sc : List (List (String × T))) :
    Except E A × List (List (String × T)) :=
  let r := body (scope_push sc)
  (r.1, scope_pop r.2)

/-!
`implicit_value_t<T>` is a `std::deque<boost::optional<T>>`, newest frame at
the front; modelled as `List (Option T)`.
-/

/-- `implicit_value_t::push()`: a new frame holding no value. -/
def implicit_push {T : Type} (sc : List (Option T)) : List (Option T) :=
  none :: sc

/-- `implicit_value_t::push(t)`: a new frame holding `t`. -/
def implicit_push_value {T : Type} (v : T) (sc : List (Option T)) :
    List (Option T) :=
  some v :: sc

/-- `implicit_value_t::pop` (`pop_front`). -/
def implicit_pop {T : Type} (sc : List (Option T)) : List (Option T) :=
  sc.tail

/-- `implicit_value_t::has_value`: converts `scopes.front()` to `bool`,
inspecting the top frame only.  (Calling `front()` on an empty deque is
undefined behaviour in the source; we totalise it to `false`.) -/
def has_value {T : Type} (sc : List (Option T)) : Bool :=
  (sc.headD none).isSome

/-- `implicit_value_t::get_value`: `*scopes.front()`, the top frame only.
The source returns a bare `T` and is undefined unless `has_value()`; we
return an `Option` so the partiality is explicit. -/
def get_value {T : Type} (sc : List (Option T)) : Option T :=
  sc.headD none

/-- The `implicit_value_t` default constructor: it starts from an empty
deque and performs one `push()`. -/
def implicit_init {T : Type} : List (Option T) :=
  implicit_push []

/-- `implicit_value_t::impliciter_t`, no-value form: push an empty frame on
entry, run the region, pop on every exit path. -/
def with_impliciter {T E A : Type}
    (body : List (Option T) → Except E A × List (Option T))
    (sc : List (Option T)) : Except E A × List (Option T) :=
  let r := body (implicit_push sc)
  (r.1, implicit_pop r.2)

/-- `implicit_value_t::impliciter_t`, value form: push a frame holding `v`
on entry, run the region, pop on every exit path. -/
def with_impliciter_value {T E A : Type} (v : T)
    (body : List (Option T) → Except E A × List (Option T))
    (sc : List (Option T)) : Except E A × List (Option T) :=
  let r := body (implicit_push_value v sc)
  (r.1, implicit_pop r.2)

/-- Concatenation of all substreams, in upstream order: the specified
result of draining `concat_map(g)`. -/
def concat_all {J : Type} (g : J → List J) : List J → List J
  | [] => []
  | a :: rest => g a ++ concat_all g rest

/-- Concrete variable names used when instantiating the scope theorems. -/
def nm_a : String := "a"

def nm_b : String := "b"

/-!
Theorems.  Each claim of the specification is settled by one theorem below,
with shared helper lemmas kept separate.
-/

theorem orO_none_right {T : Type} (a : Option T) : orO a none = a := by
  cases a <;> rfl

theorem orO_assoc {T : Type} (a b c : Option T) :
    orO (orO a b) c = orO a (orO b c) := by
  cases a <;> rfl

/-- Claim C6: implicit-value lookup consults only the innermost frame:
`has_value`/`get_value` inspect the front frame only, a freshly pushed empty
frame hides any outer value, and absence is observably distinct from any
present value. -/
theorem implicit_top_frame_only (T : Type) (sc rest rest' : List (Option T))
    (v : T) (w : Option T) :
    has_value (implicit_push sc) = false ∧
    has_value (implicit_push_value v sc) = true ∧
    get_value (implicit_push_value v sc) = some v ∧
    has_value (implicit_push (implicit_push_value v sc)) = false ∧
    has_value (w :: rest) = has_value (w :: rest') ∧
    get_value (w :: rest) = get_value (w :: rest') := by
  simp [has_value, get_value, implicit_push, implicit_push_value]

/-- Claim C10: a default-constructed `implicit_value_t` already holds exactly
one frame with no value: `has_value` inspects a nonempty deque and returns
`false` before any explicit push. -/
theorem implicit_initial_frame (T : Type) :
    implicit_init (T := T) = [none] ∧
    (implicit_init (T := T)).length = 1 ∧
    implicit_init (T := T) ≠ [] ∧
    has_value (implicit_init (T := T)) = false := by
  simp [implicit_init, implicit_push, has_value]

/-- Claim C5: scope frames are balanced on every exit path: the sentinel's
construction pushes exactly one frame, its destruction pops exactly one, and
a guarded region whose body preserves the frame count (whether it returns
normally or propagates an error value) leaves the frame count at its entry
value.  This holds for `new_scope_t` and both `impliciter_t` forms. -/
theorem scope_frame_balance (T E A : Type)
    (body : List (List (String × T)) → Except E A × List (List (String × T)))
    (bodyI : List (Option T) → Except E A × List (Option T))
    (sc : List (List (String × T))) (sci : List (Option T)) (v : T)
    (hb : ∀ s, ((body s).2).length = s.length)
    (hbI : ∀ s, ((bodyI s).2).length = s.length) :
    (scope_push sc).length = sc.length + 1 ∧
    scope_pop (scope_push sc) = sc ∧
    (implicit_push sci).length = sci.length + 1 ∧
    (implicit_push_value v sci).length = sci.length + 1 ∧
    implicit_pop (implicit_push sci) = sci ∧
    implicit_pop (implicit_push_value v sci) = sci ∧
    ((with_new_scope body sc).2).length = sc.length ∧
    ((with_impliciter bodyI sci).2).length = sci.length ∧
    ((with_impliciter_value v bodyI sci).2).length = sci.length := by
  refine ⟨rfl, rfl, rfl, rfl, rfl, rfl, ?_, ?_, ?_⟩
  · simp [with_new_scope, scope_pop, hb, scope_push]
  · simp [with_impliciter, implicit_pop, hbI, implicit_push]
  · simp [with_impliciter_value, implicit_pop, hbI, implicit_push_value]

theorem scope_frame_balance_witness :
    ((with_new_scope (fun s => ((Except.ok 0 : Except Unit Nat), s))
        ([[]] : List (List (String × Nat)))).2).length = 1 ∧
    ((with_impliciter (fun s => ((Except.ok 0 : Except Unit Nat), s))
        ([some 1] : List (Option Nat))).2).length = 1 := by
  have h := scope_frame_balance Nat Unit Nat (fun s => (Except.ok 0, s))
    (fun s => (Except.ok 0, s)) [[]] [some 1] 2 (fun _ => rfl) (fun _ => rfl)
  exact ⟨h.2.2.2.2.2.2.1, h.2.2.2.2.2.2.2.1⟩

theorem scope_get_cons {T : Type} (fr : List (String × T))
    (rest : List (List (String × T))) (nm : String) :
    scope_get (fr :: rest) nm = orO (assoc_find fr nm) (scope_get rest nm) := by
  cases h : assoc_find fr nm <;> simp [scope_get, h, orO]

theorem scope_get_isSome {T : Type} (sc : List (List (String × T)))
    (nm : String) (h : scope_is_in_scope sc nm = true) :
    (scope_get sc nm).isSome = true := by
  induction sc with
  | nil => simp [scope_is_in_scope] at h
  | cons fr rest ih =>
    rw [scope_get_cons]
    cases hf : assoc_find fr nm with
    | some v => simp [orO]
    | none =>
      simp [orO]
      apply ih
      simp [scope_is_in_scope, hf] at h
      exact h

theorem scope_get_eq_find {T : Type} (sc : List (List (String × T)))
    (nm : String) :
    scope_get sc nm =
      (sc.find? fun fr => (assoc_find fr nm).isSome).bind
        fun fr => assoc_find fr nm := by
  induction sc with
  | nil => rfl
  | cons fr rest ih =>
    rw [scope_get_cons]
    cases hf : assoc_find fr nm with
    | some v =>
      rw [List.find?_cons_of_pos _ (by simp [hf])]
      simp [orO, hf]
    | none =>
      rw [List.find?_cons_of_neg _ (by simp [hf])]
      simp [orO, ih]

/-- Claim C7: when `is_in_scope(name)` holds, `get(name)` returns the value
bound in the newest frame containing the name (frames searched
newest-first), and the `unreachable` failure branch (modelled as `none`)
is not taken. -/
theorem scope_get_newest_frame (T : Type) (sc : List (List (String × T)))
    (nm : String) (h : scope_is_in_scope sc nm = true) :
    scope_get sc nm ≠ none ∧
    scope_get sc nm =
      (sc.find? fun fr => (assoc_find fr nm).isSome).bind
        fun fr => assoc_find fr nm := by
  refine ⟨?_, scope_get_eq_find sc nm⟩
  have hs := scope_get_isSome sc nm h
  exact Option.ne_none_iff_isSome.mpr hs

theorem scope_get_newest_frame_witness :
    scope_is_in_scope [[(nm_a, 1)], [(nm_a, 2), (nm_b, 3)]] nm_a = true ∧
    scope_get [[(nm_a, 1)], [(nm_a, 2), (nm_b, 3)]] nm_a ≠ none :=
  ⟨by decide,
    (scope_get_newest_frame Nat [[(nm_a, 1)], [(nm_a, 2), (nm_b, 3)]] nm_a
      (by decide)).1⟩

theorem assoc_find_append {T : Type} (m m' : List (String × T)) (nm : String) :
    assoc_find (m ++ m') nm = orO (assoc_find m nm) (assoc_find m' nm) := by
  induction m with
  | nil => simp [assoc_find, orO]
  | cons kv rest ih =>
    obtain ⟨k, v⟩ := kv
    by_cases h : nm = k <;> simp [assoc_find, h, ih, orO]

theorem find_insert_absent {T : Type} (m : List (String × T)) (kv : String × T)
    (nm : String) :
    assoc_find (map_insert_absent m kv) nm =
      orO (assoc_find m nm) (if nm = kv.1 then some kv.2 else none) := by
  unfold map_insert_absent
  by_cases hm : (assoc_find m kv.1).isSome
  · rw [if_pos hm]
    by_cases h : nm = kv.1
    · rw [if_pos h, h]
      cases hv : assoc_find m kv.1 with
      | none => rw [hv] at hm; simp at hm
      | some v => simp [orO]
    · rw [if_neg h, orO_none_right]
  · rw [if_neg hm]
    rw [assoc_find_append]
    obtain ⟨k, v⟩ := kv
    by_cases h : nm = k <;> simp [assoc_find, h]

theorem find_foldl_frame {T : Type} (fr : List (String × T)) (nm : String) :
    ∀ m : List (String × T),
      assoc_find (fr.foldl map_insert_absent m) nm =
        orO (assoc_find m nm) (assoc_find fr nm) := by
  induction fr with
  | nil => intro m; simp [assoc_find, orO_none_right]
  | cons kv rest ih =>
    intro m
    obtain ⟨k, v⟩ := kv
    rw [List.foldl_cons, ih, find_insert_absent, orO_assoc]
    by_cases h : nm = k <;> simp [assoc_find, h, orO]

theorem find_dump_fold {T : Type} (sc : List (List (String × T))) (nm : String) :
    ∀ m : List (String × T),
      assoc_find (sc.foldl (fun m fr => fr.foldl map_insert_absent m) m) nm =
        orO (assoc_find m nm) (scope_get sc nm) := by
  induction sc with
  | nil => intro m; simp [scope_get, orO_none_right]
  | cons fr rest ih =>
    intro m
    rw [List.foldl_cons, ih, find_foldl_frame, orO_assoc, scope_get_cons]

/-- Claim C9: `dump` flattens the stack to a single map in which newer
frames win; for every name in scope the dumped map holds exactly the value
`get` returns (and in particular a value is present). -/
theorem dump_matches_get (T : Type) (sc : List (List (String × T)))
    (nm : String) (h : scope_is_in_scope sc nm = true) :
    assoc_find (scope_dump sc) nm = scope_get sc nm ∧
    assoc_find (scope_dump sc) nm ≠ none := by
  have e : assoc_find (scope_dump sc) nm = scope_get sc nm := by
    unfold scope_dump
    rw [find_dump_fold]
    simp [assoc_find, orO]
  refine ⟨e, ?_⟩
  rw [e]
  exact Option.ne_none_iff_isSome.mpr (scope_get_isSome sc nm h)

theorem dump_matches_get_witness :
    scope_is_in_scope [[(nm_b, 7)], [(nm_a, 2), (nm_b, 3)]] nm_b = true ∧
    assoc_find (scope_dump [[(nm_b, 7)], [(nm_a, 2), (nm_b, 3)]]) nm_b =
      scope_get [[(nm_b, 7)], [(nm_a, 2), (nm_b, 3)]] nm_b :=
  ⟨by decide,
    (dump_matches_get Nat [[(nm_b, 7)], [(nm_a, 2), (nm_b, 3)]] nm_b
      (by decide)).1⟩

theorem forever_to_step {σ J : Type} (step : Step σ J)
    (h : ExhaustForever step) : ExhaustStep step := by
  intro s hs
  exact h s hs 0

theorem exhaust_step_forever {σ J : Type} (step : Step σ J)
    (h : ExhaustStep step) : ExhaustForever step := by
  intro s hs k
  induction k generalizing s with
  | zero => simpa [stepN] using h s hs
  | succ k ih =>
    have h2 := ih ((step s).2) (h s hs)
    simpa [stepN] using h2

theorem in_memory_exhaust_step {J : Type} :
    ExhaustStep (in_memory_next (J := J)) := by
  intro s hs
  cases s with
  | nil => simp [Exhausted, in_memory_next]
  | cons x xs => simp [Exhausted, in_memory_next] at hs

theorem in_memory_exhaust_forever {J : Type} :
    ExhaustForever (in_memory_next (J := J)) :=
  exhaust_step_forever _ in_memory_exhaust_step

theorem union_next_none {σ J : Type} (step : Step σ J) :
    ∀ ss : List σ, (union_next step ss).1 = none →
      (union_next step ss).2 = [] := by
  intro ss
  induction ss with
  | nil => intro _; rfl
  | cons s rest ih =>
    intro h
    cases hs : step s with
    | mk r s' =>
      cases r with
      | some j => rw [union_next, hs] at h; simp at h
      | none =>
        rw [union_next, hs] at h ⊢
        exact ih h

theorem union_exhaust_step {σ J : Type} (step : Step σ J) :
    ExhaustStep (union_next step) := by
  intro ss hs
  have h2 := union_next_none step ss hs
  rw [Exhausted, h2]
  rfl

theorem filter_next_none {J : Type} (p : J → Bool) :
    ∀ l : List J, (filter_next p l).1 = none → (filter_next p l).2 = [] := by
  intro l
  induction l with
  | nil => intro _; rfl
  | cons x xs ih =>
    intro h
    by_cases hp : p x
    · rw [filter_next, if_pos hp] at h; simp at h
    · rw [filter_next, if_neg hp] at h ⊢
      exact ih h

theorem filter_exhaust_step {J : Type} (p : J → Bool) :
    ExhaustStep (filter_next p) := by
  intro l hl
  have h2 := filter_next_none p l hl
  rw [Exhausted, h2]
  rfl

theorem mapping_next_eq {σ J : Type} (f : J → J) (step : Step σ J) (s : σ) :
    mapping_next f step s = (Option.map f ((step s).1), (step s).2) := by
  unfold mapping_next
  cases hst : step s with
  | mk r s' => cases r <;> simp

theorem mapping_exhaust_step {σ J : Type} (f : J → J) (step : Step σ J)
    (h : ExhaustStep step) : ExhaustStep (mapping_next f step) := by
  intro s hs
  have hs' : (step s).1 = none := by
    rw [Exhausted, mapping_next_eq] at hs
    simpa using hs
  have h2 := h s hs'
  rw [Exhausted] at h2
  rw [Exhausted, mapping_next_eq, mapping_next_eq]
  simp [h2]

theorem concat_next_none {J : Type} (g : J → List J) :
    ∀ (up : List J) (sub : Option (List J)),
      (concat_mapping_next g (sub, up)).1 = none →
      (concat_mapping_next g (sub, up)).2.1 = none := by
  intro up
  induction up with
  | nil =>
    intro sub h
    match sub with
    | none => rw [concat_mapping_next]
    | some [] => rw [concat_mapping_next]
    | some (x :: xs) => rw [concat_mapping_next] at h; simp at h
  | cons j up' ih =>
    intro sub h
    match sub with
    | none => rw [concat_mapping_next]
    | some (x :: xs) => rw [concat_mapping_next] at h; simp at h
    | some [] =>
      rw [concat_mapping_next] at h ⊢
      exact ih (some (g j)) h

theorem concat_exhaust_step {J : Type} (g : J → List J) :
    ExhaustStep (concat_mapping_next g) := by
  intro st hs
  obtain ⟨sub, up⟩ := st
  have h2 := concat_next_none g up sub hs
  rw [Exhausted]
  cases hst : (concat_mapping_next g (sub, up)).2 with
  | mk sub' up' =>
    rw [hst] at h2
    simp at h2
    rw [h2]
    rw [concat_mapping_next]

theorem limit_next_eq_zero {σ J : Type} (step : Step σ J) (ls : Int × σ)
    (h : ls.1 = 0) : limit_next step ls = (none, ls) := by
  unfold limit_next
  rw [if_pos h]

theorem limit_next_eq_pull {σ J : Type} (step : Step σ J) (ls : Int × σ)
    (h : ls.1 ≠ 0) :
    limit_next step ls = ((step ls.2).1, (ls.1 - 1, (step ls.2).2)) := by
  unfold limit_next
  rw [if_neg h]

theorem limit_exhaust_step {σ J : Type} (step : Step σ J)
    (h : ExhaustStep step) : ExhaustStep (limit_next step) := by
  intro ls hs
  rw [Exhausted]
  by_cases hl : ls.1 = 0
  · rw [limit_next_eq_zero step ls hl]
    rw [limit_next_eq_zero step ls hl]
  · rw [Exhausted, limit_next_eq_pull step ls hl] at hs
    simp at hs
    rw [limit_next_eq_pull step ls hl]
    by_cases hl1 : ls.1 - 1 = 0
    · rw [limit_next_eq_zero step _ hl1]
    · rw [limit_next_eq_pull step _ hl1]
      have h2 := h ls.2 hs
      rw [Exhausted] at h2
      simpa using h2

theorem mux_next_hit {σ J : Type} (step : Step σ J) (i : Nat) (m : MuxState σ J)
    (h : i < m.data.length) :
    mux_next step (i, m) = (some (m.data[i]), (i + 1, m)) := by
  rw [mux_next]
  simp [h]

theorem mux_next_miss_pull {σ J : Type} (step : Step σ J) (i : Nat)
    (m : MuxState σ J) (h : ¬ i < m.data.length) (j : J) (s' : σ)
    (hst : step m.stream = (some j, s')) :
    mux_next step (i, m) = mux_next step (i, ⟨s', m.data ++ [j]⟩) := by
  rw [mux_next]
  simp [h, hst]

theorem mux_next_miss_fail {σ J : Type} (step : Step σ J) (i : Nat)
    (m : MuxState σ J) (h : ¬ i < m.data.length) (s' : σ)
    (hst : step m.stream = (none, s')) :
    mux_next step (i, m) = (none, (i, ⟨s', m.data⟩)) := by
  rw [mux_next]
  simp [h, hst]

theorem mux_next_none_state {σ J : Type} (step : Step σ J) :
    ∀ c : Nat × MuxState σ J, (mux_next step c).1 = none →
      (mux_next step c).2.2.data.length ≤ (mux_next step c).2.1 ∧
      ∃ s0, (step s0).1 = none ∧ (mux_next step c).2.2.stream = (step s0).2 := by
  intro c
  induction c using mux_next.induct step with
  | case1 x hx =>
    intro hn
    obtain ⟨i, m⟩ := x
    rw [mux_next_hit step i m hx] at hn
    simp at hn
  | case2 x hx j s' hst ih =>
    intro hn
    obtain ⟨i, m⟩ := x
    rw [mux_next_miss_pull step i m hx j s' hst] at hn ⊢
    exact ih hn
  | case3 x hx s' hst =>
    intro hn
    obtain ⟨i, m⟩ := x
    rw [mux_next_miss_fail step i m hx s' hst]
    refine ⟨by simp at hx ⊢; omega, m.stream, ?_, ?_⟩
    · rw [hst]
    · rw [hst]

theorem mux_exhaust_step {σ J : Type} (step : Step σ J)
    (h : ExhaustStep step) : ExhaustStep (mux_next step) := by
  intro c hc
  obtain ⟨hlen, s0, hs0, hstr⟩ := mux_next_none_state step c hc
  rw [Exhausted]
  cases hc2 : (mux_next step c).2 with
  | mk i' m' =>
    rw [hc2] at hlen hstr
    simp at hlen hstr
    have h2 : step m'.stream = (none, (step m'.stream).2) := by
      have h3 : (step m'.stream).1 = none := by
        rw [hstr]
        exact h s0 hs0
      cases hst : step m'.stream with
      | mk r s' =>
        rw [hst] at h3
        simp at h3
        rw [h3]
    rw [mux_next_miss_fail step i' m' (by omega) ((step m'.stream).2) h2]

/-- Claim C4: for every stream kind of the core (in-memory, union, filter,
mapping, concat-mapping, limit, multiplexer consumer), once `next()` has
returned the exhaustion sentinel every subsequent call returns it too,
under the hypothesis that the wrapped upstream satisfies the same
contract.  Filter and concat-map are stated over a list-modelled upstream,
which satisfies the contract by construction. -/
theorem stream_exhaustion (J σ : Type) (step : Step σ J)
    (h : ExhaustForever step) (p : J → Bool) (f : J → J) (g : J → List J) :
    ExhaustForever (in_memory_next (J := J)) ∧
    ExhaustForever (union_next step) ∧
    ExhaustForever (filter_next p) ∧
    ExhaustForever (mapping_next f step) ∧
    ExhaustForever (concat_mapping_next g) ∧
    ExhaustForever (limit_next step) ∧
    ExhaustForever (mux_next step) := by
  have h1 := forever_to_step step h
  exact ⟨in_memory_exhaust_forever,
    exhaust_step_forever _ (union_exhaust_step step),
    exhaust_step_forever _ (filter_exhaust_step p),
    exhaust_step_forever _ (mapping_exhaust_step f step h1),
    exhaust_step_forever _ (concat_exhaust_step g),
    exhaust_step_forever _ (limit_exhaust_step step h1),
    exhaust_step_forever _ (mux_exhaust_step step h1)⟩

theorem stream_exhaustion_witness :
    ExhaustForever (in_memory_next (J := Nat)) ∧
    ExhaustForever (union_next (in_memory_next (J := Nat))) ∧
    ExhaustForever (mux_next (in_memory_next (J := Nat))) :=
  have h := stream_exhaustion Nat (List Nat) in_memory_next
    in_memory_exhaust_forever (fun n => n % 2 == 0) (fun n => n + 1)
    (fun n => [n])
  ⟨h.1, h.2.1, h.2.2.2.2.2.2⟩

theorem filter_next_fst {J : Type} (p : J → Bool) (up : List J) :
    (filter_next p up).1 = (up.filter p).head? := by
  induction up with
  | nil => rfl
  | cons x xs ih =>
    by_cases h : p x
    · rw [filter_next, if_pos h]
      simp [List.filter_cons, h]
    · rw [filter_next, if_neg h]
      simp [List.filter_cons, h, ih]

theorem filter_next_snd {J : Type} (p : J → Bool) (up : List J) :
    ((filter_next p up).2).filter p = (up.filter p).tail := by
  induction up with
  | nil => rfl
  | cons x xs ih =>
    by_cases h : p x
    · rw [filter_next, if_pos h]
      simp [List.filter_cons, h]
    · rw [filter_next, if_neg h]
      simp [List.filter_cons, h, ih]

theorem produced_filter_nil {J : Type} (p : J → Bool) :
    ∀ (k : Nat) (up : List J), up.filter p = [] →
      produced (filter_next p) k up = [] := by
  intro k
  induction k with
  | zero => intro up _; rfl
  | succ k ih =>
    intro up h
    have h1 := filter_next_fst p up
    have h2 := filter_next_snd p up
    rw [h, List.head?_nil] at h1
    rw [h, List.tail_nil] at h2
    rw [produced, iterStream, h1, List.filterMap_cons]
    exact ih _ h2

theorem filter_produced {J : Type} (p : J → Bool) :
    ∀ (k : Nat) (up : List J),
      produced (filter_next p) k up = (up.filter p).take k := by
  intro k
  induction k with
  | zero => intro up; rfl
  | succ k ih =>
    intro up
    cases hf : up.filter p with
    | nil =>
      rw [produced_filter_nil p (k + 1) up hf]
      simp
    | cons y ys =>
      have h1 := filter_next_fst p up
      have h2 := filter_next_snd p up
      rw [hf, List.head?_cons] at h1
      rw [hf, List.tail_cons] at h2
      rw [produced, iterStream, h1]
      simp only [List.filterMap_cons, id, List.take_succ_cons]
      congr 1
      have h3 := ih ((filter_next p up).2)
      rw [produced] at h3
      rw [h3, h2]

/-- Claim C8: fully draining a filter stream yields exactly the subsequence
of upstream documents satisfying `p`, in upstream order (the first `k`
produced documents are the first `k` of `filter p`), and a single `next()`
returns the first upstream document on which `p` holds, unmodified, or the
sentinel when the remaining upstream has none. -/
theorem filter_stream_subsequence (J : Type) (p : J → Bool) (up : List J)
    (k : Nat) :
    produced (filter_next p) k up = (up.filter p).take k ∧
    (filter_next p up).1 = (up.filter p).head? :=
  ⟨filter_produced p k up, filter_next_fst p up⟩

theorem concat_produced_unset {J : Type} (g : J → List J) (k : Nat)
    (up : List J) :
    produced (concat_mapping_next g) k (none, up) = [] := by
  induction k with
  | zero => rfl
  | succ k ih =>
    rw [produced, iterStream, concat_mapping_next]
    simp only [List.filterMap_cons, id]
    rw [produced] at ih
    exact ih

theorem concat_produced_set {J : Type} (g : J → List J) :
    ∀ (up sub : List J) (k : Nat),
      produced (concat_mapping_next g) k (some sub, up) =
        (sub ++ concat_all g up).take k := by
  intro up
  induction up with
  | nil =>
    intro sub
    induction sub with
    | nil =>
      intro k
      cases k with
      | zero => rfl
      | succ k =>
        rw [produced, iterStream, concat_mapping_next]
        simp only [List.filterMap_cons, id]
        have h := concat_produced_unset g k ([] : List J)
        rw [produced] at h
        rw [h]
        simp [concat_all]
    | cons x xs ihs =>
      intro k
      cases k with
      | zero => rfl
      | succ k =>
        rw [produced, iterStream, concat_mapping_next]
        simp only [List.filterMap_cons, id]
        have h := ihs k
        rw [produced] at h
        simpa [List.take_succ_cons] using h
  | cons j up' ihu =>
    intro sub
    induction sub with
    | nil =>
      intro k
      cases k with
      | zero => rfl
      | succ k =>
        have he : concat_mapping_next g (some ([] : List J), j :: up') =
            concat_mapping_next g (some (g j), up') := by
          rw [concat_mapping_next]
        rw [produced, iterStream, he]
        have h := ihu (g j) (k + 1)
        rw [produced, iterStream] at h
        rw [h]
        simp [concat_all]
    | cons x xs ihs =>
      intro k
      cases k with
      | zero => rfl
      | succ k =>
        rw [produced, iterStream, concat_mapping_next]
        simp only [List.filterMap_cons, id]
        have h := ihs k
        rw [produced] at h
        simpa [List.take_succ_cons] using h

theorem concat_stepN_substream {J : Type} (g : J → List J) :
    ∀ (d : Nat) (sub up : List J), d ≤ sub.length →
      stepN (concat_mapping_next g) d (some sub, up) =
        (some (sub.drop d), up) := by
  intro d
  induction d with
  | zero => intro sub up _; simp [stepN]
  | succ d ih =>
    intro sub up h
    cases sub with
    | nil => simp at h
    | cons x xs =>
      have h2 := ih xs up (by simpa using h)
      rw [stepN, concat_mapping_next]
      simpa using h2

/-- Claim C2: the concat-mapping stream over upstream documents yields the
concatenation of the substreams in upstream order (the first `k` produced
documents are the first `k` of the flattening); construction eagerly pulls
the first upstream document so a substream is already installed; and while
the first substream is being drained (`d` calls, `d` at most its length)
the upstream is not pulled again. -/
theorem concat_map_order (J : Type) (g : J → List J) (up : List J) (k : Nat)
    (a : J) (rest : List J) (d : Nat) (hd : d ≤ (g a).length) :
    produced (concat_mapping_next g) k (concat_mapping_init g up) =
      (concat_all g up).take k ∧
    concat_mapping_init g (a :: rest) = (some (g a), rest) ∧
    (stepN (concat_mapping_next g) d (concat_mapping_init g (a :: rest))).2 =
      rest := by
  refine ⟨?_, rfl, ?_⟩
  · cases up with
    | nil =>
      rw [show concat_mapping_init g ([] : List J) = (none, []) from rfl]
      rw [concat_produced_unset]
      simp [concat_all]
    | cons j up' =>
      rw [show concat_mapping_init g (j :: up') = (some (g j), up') from rfl]
      rw [concat_produced_set]
      simp [concat_all]
  · rw [show concat_mapping_init g (a :: rest) = (some (g a), rest) from rfl]
    rw [concat_stepN_substream g d (g a) rest hd]

theorem concat_map_order_witness :
    2 ≤ (((fun n => [n, n + 10]) 3 : List Nat)).length ∧
    produced (concat_mapping_next fun n => [n, n + 10]) 5
        (concat_mapping_init (fun n => [n, n + 10]) ([1, 2] : List Nat)) =
      (concat_all (fun n => [n, n + 10]) ([1, 2] : List Nat)).take 5 :=
  ⟨by decide,
    (concat_map_order Nat (fun n => [n, n + 10]) [1, 2] 5 3 [4] 2
      (by decide)).1⟩

theorem stepN_fixed {σ J : Type} (step : Step σ J) (s : σ)
    (h : (step s).2 = s) : ∀ m, stepN step m s = s := by
  intro m
  induction m with
  | zero => rfl
  | succ m ih =>
    rw [stepN, h]
    exact ih

theorem limit_counting_invariant {σ J : Type} (step : Step σ J) :
    ∀ (k : Nat) (l : Int) (c : Nat) (s : σ), 0 ≤ l →
      0 ≤ (stepN (limit_next (counting_step step)) k (l, (c, s))).1 ∧
      ((stepN (limit_next (counting_step step)) k (l, (c, s))).2.1 : Int) +
        (stepN (limit_next (counting_step step)) k (l, (c, s))).1 = c + l ∧
      (produced (limit_next (counting_step step)) k (l, (c, s))).length + c ≤
        (stepN (limit_next (counting_step step)) k (l, (c, s))).2.1 := by
  intro k
  induction k with
  | zero =>
    intro l c s h0
    refine ⟨?_, ?_, ?_⟩ <;> simp [stepN, produced, iterStream]
    omega
  | succ k ih =>
    intro l c s h0
    by_cases hl : l = 0
    · rw [stepN, produced, iterStream,
        limit_next_eq_zero (counting_step step) (l, (c, s)) hl]
      simp only [List.filterMap_cons, id]
      have h := ih l c s h0
      rw [produced] at h
      simpa using h
    · cases hss : step s with
      | mk r s2 =>
        have he : limit_next (counting_step step) (l, (c, s)) =
            (r, (l - 1, (c + 1, s2))) := by
          rw [limit_next_eq_pull (counting_step step) (l, (c, s)) hl]
          show ((counting_step step (c, s)).1, _) = _
          unfold counting_step
          rw [hss]
        have h1 : (0 : Int) ≤ l - 1 := by omega
        have h := ih (l - 1) (c + 1) s2 h1
        rw [produced] at h
        obtain ⟨ha, hb, hc⟩ := h
        rw [stepN, produced, iterStream, he]
        cases r with
        | none =>
          simp only [List.filterMap_cons, id]
          refine ⟨by simpa using ha, by omega, by omega⟩
        | some j =>
          simp only [List.filterMap_cons, id, List.length_cons]
          refine ⟨by simpa using ha, by omega, by omega⟩

/-- Claim C3: a limit stream built with `n ≥ 0` over any upstream emits at
most `n` documents over any `k` calls, calls the upstream's `next()` at
most `n` times in total (the counter in the state counts upstream pulls),
and once `n` documents have been emitted every further call returns the
sentinel and leaves the state — including the pull counter — unchanged,
so the upstream is not pulled at all. -/
theorem limit_purity (J σ : Type) (step : Step σ J) (s : σ) (n : Int)
    (hn : 0 ≤ n) (k : Nat) :
    (produced (limit_next (counting_step step)) k (n, (0, s))).length ≤
      n.toNat ∧
    (stepN (limit_next (counting_step step)) k (n, (0, s))).2.1 ≤ n.toNat ∧
    ((produced (limit_next (counting_step step)) k (n, (0, s))).length =
        n.toNat →
      ∀ m, stepN (limit_next (counting_step step)) m
            (stepN (limit_next (counting_step step)) k (n, (0, s))) =
          stepN (limit_next (counting_step step)) k (n, (0, s)) ∧
        (limit_next (counting_step step)
            (stepN (limit_next (counting_step step)) k (n, (0, s)))).1 =
          none) := by
  obtain ⟨h1, h2, h3⟩ := limit_counting_invariant step k n 0 s hn
  refine ⟨by omega, by omega, ?_⟩
  intro hfull m
  have hl0 : (stepN (limit_next (counting_step step)) k (n, (0, s))).1 = 0 := by
    omega
  have hz := limit_next_eq_zero (counting_step step)
    (stepN (limit_next (counting_step step)) k (n, (0, s))) hl0
  constructor
  · exact stepN_fixed _ _ (by rw [hz]) m
  · rw [hz]

theorem limit_purity_witness :
    (0 : Int) ≤ 2 ∧
    (produced (limit_next (counting_step (in_memory_next (J := Nat)))) 3
        ((2 : Int), (0, [9]))).length ≤ (2 : Int).toNat :=
  ⟨by decide,
    (limit_purity Nat (List Nat) in_memory_next [9] 2 (by decide) 3).1⟩

theorem mux_next_in_memory {J : Type} (up : List J) :
    ∀ (st d : List J) (i : Nat), d ++ st = up →
      ∃ m' : MuxState (List J) J,
        mux_next in_memory_next (i, ⟨st, d⟩) =
          (up[i]?, (if i < up.length then i + 1 else i, m')) ∧
        m'.data ++ m'.stream = up := by
  intro st
  induction st with
  | nil =>
    intro d i hinv
    rw [List.append_nil] at hinv
    by_cases h : i < d.length
    · refine ⟨⟨[], d⟩, ?_, by simpa using hinv⟩
      rw [mux_next_hit in_memory_next i ⟨[], d⟩ h]
      have hlt : i < up.length := by rw [← hinv]; omega
      rw [if_pos hlt]
      have hv : up[i]? = some (d[i]) := by
        rw [← hinv]
        exact List.getElem?_eq_getElem h
      rw [hv]
    · refine ⟨⟨[], d⟩, ?_, by simpa using hinv⟩
      rw [mux_next_miss_fail in_memory_next i ⟨[], d⟩ h [] rfl]
      have hge : up.length ≤ i := by rw [← hinv]; omega
      rw [if_neg (by omega)]
      rw [List.getElem?_eq_none hge]
  | cons x st' ih =>
    intro d i hinv
    by_cases h : i < d.length
    · refine ⟨⟨x :: st', d⟩, ?_, hinv⟩
      rw [mux_next_hit in_memory_next i ⟨x :: st', d⟩ h]
      have hlt : i < up.length := by rw [← hinv]; simp; omega
      rw [if_pos hlt]
      have hv : up[i]? = some (d[i]) := by
        rw [← hinv, List.getElem?_append_left h]
        exact List.getElem?_eq_getElem h
      rw [hv]
    · have hpull : in_memory_next (x :: st') = (some x, st') := rfl
      rw [mux_next_miss_pull in_memory_next i ⟨x :: st', d⟩ h x st' hpull]
      exact ih (d ++ [x]) i (by simpa using hinv)

theorem mux_run_spec {J : Type} (up : List J) :
    ∀ (sched : List Nat) (kpast idxs : Nat → Nat)
      (outs : Nat → List (Option J)) (mst md : List J),
      md ++ mst = up →
      (∀ c, idxs c = min (kpast c) up.length) →
      (∀ c, outs c = (List.range (kpast c)).map fun j => up[j]?) →
      (∀ c, (mux_run in_memory_next sched (idxs, outs, ⟨mst, md⟩)).2.1 c =
          (List.range (kpast c + sched.count c)).map fun j => up[j]?) ∧
      (mux_run in_memory_next sched (idxs, outs, ⟨mst, md⟩)).2.2.data ++
        (mux_run in_memory_next sched (idxs, outs, ⟨mst, md⟩)).2.2.stream =
        up := by
  intro sched
  induction sched with
  | nil =>
    intro kpast idxs outs mst md hm hi ho
    refine ⟨?_, by simpa [mux_run] using hm⟩
    intro c
    simp [mux_run, ho c]
  | cons c0 sched' ih =>
    intro kpast idxs outs mst md hm hi ho
    obtain ⟨m', hme, hm'⟩ := mux_next_in_memory up mst md (idxs c0) hm
    obtain ⟨mst', md'⟩ := m'
    have hrun : mux_run in_memory_next (c0 :: sched') (idxs, outs, ⟨mst, md⟩) =
        mux_run in_memory_next sched'
          (Function.update idxs c0
            (if idxs c0 < up.length then idxs c0 + 1 else idxs c0),
           Function.update outs c0 (outs c0 ++ [up[idxs c0]?]),
           ⟨mst', md'⟩) := by
      rw [mux_run, hme]
    have hval : ∀ kk : Nat, up[min kk up.length]? = up[kk]? := by
      intro kk
      rcases Nat.lt_or_ge kk up.length with hlt | hge
      · rw [Nat.min_eq_left (Nat.le_of_lt hlt)]
      · rw [Nat.min_eq_right hge, List.getElem?_eq_none (le_refl _),
          List.getElem?_eq_none hge]
    have hres := ih (Function.update kpast c0 (kpast c0 + 1))
      (Function.update idxs c0
        (if idxs c0 < up.length then idxs c0 + 1 else idxs c0))
      (Function.update outs c0 (outs c0 ++ [up[idxs c0]?])) mst' md'
      (by simpa using hm') ?_ ?_
    · rw [hrun]
      refine ⟨?_, hres.2⟩
      intro c
      rw [hres.1 c]
      by_cases hc : c = c0
      · subst hc
        rw [Function.update_same]
        have h2 : (c :: sched').count c = sched'.count c + 1 := by
          simp [List.count_cons]
        rw [h2]
        have h3 : kpast c + 1 + sched'.count c =
            kpast c + (sched'.count c + 1) := by omega
        rw [h3]
      · rw [Function.update_noteq hc, List.count_cons_of_ne hc]
    · intro c
      by_cases hc : c = c0
      · subst hc
        rw [Function.update_same, Function.update_same, hi c]
        split <;> omega
      · rw [Function.update_noteq hc, Function.update_noteq hc]
        exact hi c
    · intro c
      by_cases hc : c = c0
      · subst hc
        rw [Function.update_same, Function.update_same, ho c, hi c,
          hval (kpast c), List.range_succ]
        simp
      · rw [Function.update_noteq hc, Function.update_noteq hc]
        exact ho c

/-- Claim C1: consumers of one multiplexer all observe the upstream's own
sequence: for any schedule interleaving the `next()` calls of any family of
consumers (all starting at index `0` over one shared multiplexer wrapping
the upstream), consumer `c`'s successive results are
`up[0]?, up[1]?, ...` — document `j` of the upstream on its `j`-th call,
the sentinel once past the end — identically for every consumer;  and the
shared buffer together with the unread upstream remainder always equals
the upstream exactly (the buffer is the already-pulled prefix), so each
upstream document is pulled exactly once however many consumers read it. -/
theorem multiplexer_consistency (J : Type) (up : List J) (sched : List Nat)
    (c : Nat) :
    (mux_run in_memory_next sched
        (fun _ => 0, fun _ => [], ⟨up, []⟩)).2.1 c =
      (List.range (sched.count c)).map (fun j => up[j]?) ∧
    (mux_run in_memory_next sched
        (fun _ => 0, fun _ => [], ⟨up, []⟩)).2.2.data ++
      (mux_run in_memory_next sched
        (fun _ => 0, fun _ => [], ⟨up, []⟩)).2.2.stream = up ∧
    (mux_run in_memory_next sched
        (fun _ => 0, fun _ => [], ⟨up, []⟩)).2.2.data =
      up.take (mux_run in_memory_next sched
        (fun _ => 0, fun _ => [], ⟨up, []⟩)).2.2.data.length := by
  have h := mux_run_spec up sched (fun _ => 0) (fun _ => 0) (fun _ => [])
    up [] rfl (fun c => by simp) (fun c => by simp)
  refine ⟨by simpa using h.1 c, h.2, ?_⟩
  have h3 : ∀ d st : List J, d ++ st = up → d = up.take d.length := by
    intro d st hde
    rw [← hde, List.take_left]
  exact h3 _ _ h.2
